import Mathlib

/-
Verification of the atmospheric-muon background stage
(pisa/stages/background/atm_muons.py).

The stage is embedded shallowly:
  - event arrays become List Rat (exact arithmetic in place of float64);
  - the per-container dictionary becomes the Container structure;
  - fallible steps of the curve builder (out-of-range forward fill,
    degenerate tables, rejected configuration) return Except SplineError;
  - Python string operations split / in are reimplemented over List Char
    with the same semantics;
  - the scipy interp1d object with kind linear becomes interp1d, a
    piecewise-linear evaluator returning none outside the x-range.
-/

namespace AtmMuons

/-- Index of the first occurrence of sep in a character list, if any. -/
def strFindSub (sep : List Char) : List Char → Option Nat
  | [] => none
  | c :: rest =>
    if sep.isPrefixOf (c :: rest) then some 0
    else (strFindSub sep rest).map (· + 1)

/-- Python str.split for a non-empty separator, with explicit fuel.
Each found occurrence consumes at least one character, so fuel
length + 1 always suffices. -/
def pySplitAux (sep : List Char) : Nat → List Char → List (List Char)
  | 0, l => [l]
  | fuel+1, l =>
    match strFindSub sep l with
    | none => [l]
    | some i => l.take i :: pySplitAux sep fuel (l.drop (i + sep.length))

/-- Python l.split(sep). -/
def pySplit (sep l : List Char) : List (List Char) :=
  pySplitAux sep (l.length + 1) l

/-- Python needle in hay (substring containment). -/
def containsSub (needle : List Char) : List Char → Bool
  | [] => needle.isEmpty
  | c :: rest => needle.isPrefixOf (c :: rest) || containsSub needle rest

/-- Source line: bare_variable = params[delta_gamma_mu_variable].value.split(5Ctrue_5C)[-1]. -/
def bare_variable (v : String) : String :=
  ⟨(pySplit "true_".data v.data).getLastD []⟩

/-- Errors the curve builder can raise: ValueError from the two
configuration checks (the spec calls these ConfigurationError), and
IndexError from the out-of-bounds forward fill of trailing zeros. -/
inductive SplineError where
  | valueError : SplineError
  | indexError : SplineError
  deriving DecidableEq, Repr

deriving instance DecidableEq for Except

/-- The two validation checks at the head of _make_prim_unc_spline, in
source order: the stripped variable name must be coszen, and the file
name must mention the bare variable.  They run before any file I/O. -/
def validate_config (delta_gamma_mu_variable delta_gamma_mu_file : String) :
    Except SplineError Unit :=
  if bare_variable delta_gamma_mu_variable ≠ "coszen" then .error .valueError
  else if containsSub (bare_variable delta_gamma_mu_variable).data
      delta_gamma_mu_file.data = false then .error .valueError
  else .ok ()

/-- Indices of zero entries, as np.where(uncdata[1] == 0)[0]. -/
def zeroIndices (ys : List ℚ) : List Nat :=
  (List.range ys.length).filter (fun i => decide (ys.getD i 0 = 0))

/-- The inner for loop of the zero fill: for each recorded zero index in
increasing order, overwrite position i with the current value at i + 1,
failing like numpy does when i + 1 is past the end. -/
def fillPassAux : List ℚ → List Nat → Except SplineError (List ℚ)
  | ys, [] => .ok ys
  | ys, i :: rest =>
    match ys[i+1]? with
    | none => .error .indexError
    | some v => fillPassAux (ys.set i v) rest

/-- One iteration of the while loop body. -/
def fillPass (ys : List ℚ) : Except SplineError (List ℚ) :=
  fillPassAux ys (zeroIndices ys)

/-- The while 0.0 in uncdata[1] loop, with fuel.  Every successful pass
removes at least the rightmost zero, so fuel length + 1 always
suffices. -/
def sanitizeZeros : Nat → List ℚ → Except SplineError (List ℚ)
  | 0, ys => if 0 ∈ ys then .error .indexError else .ok ys
  | fuel+1, ys =>
    if 0 ∈ ys then (fillPass ys).bind (sanitizeZeros fuel) else .ok ys

/-- Zero sanitization of the y column of the calibration table. -/
def sanitize (ys : List ℚ) : Except SplineError (List ℚ) :=
  sanitizeZeros (ys.length + 1) ys

/-- Edge padding: xvals gains 0.0 in front and 1.0 at the back, yvals
replicates the first and last sanitized y-values; the interpolation
table is the pointwise pairing of the two padded columns. -/
def padTable (xs ys : List ℚ) : Except SplineError (List (ℚ × ℚ)) :=
  match ys with
  | [] => .error .indexError
  | y0 :: ytl =>
    .ok (List.zip (0 :: xs ++ [1]) (y0 :: (y0 :: ytl) ++ [(y0 :: ytl).getLastD 0]))

/-- The curve builder _make_prim_unc_spline: validate the configured
variable and file names, then sanitize the y column read from the file
and pad both columns.  The tabulated columns xs, ys stand for the
two-column table that np.genfromtxt returns. -/
def make_prim_unc_spline (delta_gamma_mu_variable delta_gamma_mu_file : String)
    (xs ys : List ℚ) : Except SplineError (List (ℚ × ℚ)) := do
  let _ ← validate_config delta_gamma_mu_variable delta_gamma_mu_file
  let sanitized ← sanitize ys
  padTable xs sanitized

/-- Piecewise-linear evaluation over the remaining knots, carrying the
left knot of the current segment. -/
def interpGo : ℚ → ℚ → List (ℚ × ℚ) → ℚ → Option ℚ
  | _, _, [], _ => none
  | x1, y1, (x2, y2) :: rest, t =>
    if t ≤ x2 then some (y1 + (y2 - y1) * (t - x1) / (x2 - x1))
    else interpGo x2 y2 rest t

/-- Linear-kind scipy interp1d over a table with increasing x:
none outside the tabulated range, segment-wise linear inside. -/
def interp1d (pts : List (ℚ × ℚ)) (t : ℚ) : Option ℚ :=
  match pts with
  | [] => none
  | (x1, y1) :: rest => if t < x1 then none else interpGo x1 y1 rest t

/-- One event container: the independent-variable spline values and the
centered reweighting array cached by setup_function, plus the event
weights. -/
structure Container where
  rw_array : List ℚ
  cr_rw_array : List ℚ
  weights : List ℚ
  deriving DecidableEq, Repr

/-- The per-event multiplicative factor of apply_function:
np.clip((1 + delta_gamma_mu * cr) * atm_muon_scale, 0, np.inf). -/
def weight_factor (delta_gamma_mu atm_muon_scale cr : ℚ) : ℚ :=
  max ((1 + delta_gamma_mu * cr) * atm_muon_scale) 0

/-- apply_function on one container: weights *= clip factor, computed
elementwise from cr_rw_array; the cached arrays are untouched. -/
def apply_function (delta_gamma_mu atm_muon_scale : ℚ) (c : Container) : Container :=
  { c with weights := List.zipWith (fun cr w => w * weight_factor delta_gamma_mu atm_muon_scale cr) c.cr_rw_array c.weights }

/-- Source line: norm = rw_array.sum() / rw_array.size. -/
def setup_norm (rw : List ℚ) : ℚ := rw.sum / rw.length

/-- Source line: cr_rw_array = rw_array - norm (elementwise). -/
def setup_cr_rw_array (rw : List ℚ) : List ℚ :=
  rw.map (fun y => y - setup_norm rw)

/-- Arithmetic mean of a batch, as np.ndarray.mean. -/
def npMean (l : List ℚ) : ℚ := l.sum / l.length

/-- Spec-side reading of the variable-name validation, for comparison
with bare_variable: strip one leading true_ marker and keep everything
else unchanged. -/
def specStripLeadingTrue (v : String) : String :=
  if "true_".data.isPrefixOf v.data then ⟨v.data.drop "true_".data.length⟩ else v

/-! Helper lemmas about the embedded operations. -/

lemma getD_zipWith (f : ℚ → ℚ → ℚ) (as : List ℚ) : ∀ (bs : List ℚ) (i : Nat),
    i < (List.zipWith f as bs).length →
    (List.zipWith f as bs).getD i 0 = f (as.getD i 0) (bs.getD i 0) := by
  induction as with
  | nil => intro bs i h; simp at h
  | cons a t ih =>
    intro bs i h
    cases bs with
    | nil => simp at h
    | cons b bt =>
      cases i with
      | zero => simp
      | succ n =>
        simp only [List.zipWith_cons_cons, List.getD_cons_succ]
        refine ih bt n ?_
        simpa using h

lemma exists_of_mem_zipWith (f : ℚ → ℚ → ℚ) (as : List ℚ) : ∀ (bs : List ℚ) (x : ℚ),
    x ∈ List.zipWith f as bs → ∃ a ∈ as, ∃ b ∈ bs, x = f a b := by
  induction as with
  | nil => intro bs x h; simp at h
  | cons a t ih =>
    intro bs x h
    cases bs with
    | nil => simp at h
    | cons b bt =>
      rw [List.zipWith_cons_cons] at h
      rcases List.mem_cons.mp h with h | h
      · exact ⟨a, List.mem_cons_self a t, b, List.mem_cons_self b bt, h⟩
      · obtain ⟨a1, ha, b1, hb, hx⟩ := ih bt x h
        exact ⟨a1, List.mem_cons_of_mem a ha, b1, List.mem_cons_of_mem b hb, hx⟩

lemma zipWith_same_compose (f : ℚ → ℚ → ℚ) (as : List ℚ) : ∀ ws : List ℚ,
    List.zipWith f as (List.zipWith f as ws) =
      List.zipWith (fun a w => f a (f a w)) as ws := by
  induction as with
  | nil => intro ws; rfl
  | cons a t ih =>
    intro ws
    cases ws with
    | nil => rfl
    | cons w wt => simp only [List.zipWith_cons_cons, ih]

lemma zipWith_congr_fun (f g : ℚ → ℚ → ℚ) (h : ∀ a b, f a b = g a b) (as : List ℚ) :
    ∀ bs : List ℚ, List.zipWith f as bs = List.zipWith g as bs := by
  induction as with
  | nil => intro bs; rfl
  | cons a t ih =>
    intro bs
    cases bs with
    | nil => rfl
    | cons b bt => rw [List.zipWith_cons_cons, List.zipWith_cons_cons, h a b, ih bt]

lemma sum_map_sub_const (l : List ℚ) (m : ℚ) :
    (l.map (fun y => y - m)).sum = l.sum - l.length * m := by
  induction l with
  | nil => simp
  | cons a t ih =>
    simp only [List.map_cons, List.sum_cons, ih, List.length_cons]
    push_cast
    ring

lemma fillPassAux_ok_length : ∀ (idxs : List Nat) (ys res : List ℚ),
    fillPassAux ys idxs = .ok res → res.length = ys.length := by
  intro idxs
  induction idxs with
  | nil =>
    intro ys res h
    simp only [fillPassAux, Except.ok.injEq] at h
    rw [h]
  | cons j rest ih =>
    intro ys res h
    unfold fillPassAux at h
    split at h
    · cases h
    · rename_i v hv
      have := ih (ys.set j v) res h
      simpa using this

lemma fillPassAux_ok_bound : ∀ (idxs : List Nat) (ys res : List ℚ),
    fillPassAux ys idxs = .ok res → ∀ i ∈ idxs, i + 1 < ys.length := by
  intro idxs
  induction idxs with
  | nil => intro ys res _ i hi; simp at hi
  | cons j rest ih =>
    intro ys res h i hi
    unfold fillPassAux at h
    split at h
    · cases h
    · rename_i v hv
      rcases List.mem_cons.mp hi with rfl | hi2
      · obtain ⟨hlt, _⟩ := List.getElem?_eq_some_iff.mp hv
        exact hlt
      · have := ih (ys.set j v) res h i hi2
        simpa using this

lemma fillPassAux_error : ∀ (idxs : List Nat) (ys : List ℚ) (e : SplineError),
    fillPassAux ys idxs = .error e → e = .indexError := by
  intro idxs
  induction idxs with
  | nil => intro ys e h; simp [fillPassAux] at h
  | cons j rest ih =>
    intro ys e h
    unfold fillPassAux at h
    split at h
    · injection h with h2
      exact h2.symm
    · exact ih _ e h

lemma sanitizeZeros_ok_length : ∀ (fuel : Nat) (ys res : List ℚ),
    sanitizeZeros fuel ys = .ok res → res.length = ys.length := by
  intro fuel
  induction fuel with
  | zero =>
    intro ys res h
    unfold sanitizeZeros at h
    split at h
    · cases h
    · cases h; rfl
  | succ n ih =>
    intro ys res h
    unfold sanitizeZeros at h
    split at h
    · cases hfp : fillPass ys with
      | error e => rw [hfp] at h; cases h
      | ok mid =>
        rw [hfp] at h
        have h2 : sanitizeZeros n mid = .ok res := h
        have hl1 := fillPassAux_ok_length (zeroIndices ys) ys mid hfp
        have hl2 := ih mid res h2
        rw [hl2, hl1]
    · cases h; rfl

lemma interpGo_at_one : ∀ (mid : List (ℚ × ℚ)) (x1 y1 yl : ℚ), x1 < 1 →
    (∀ p ∈ mid, p.1 < 1) → interpGo x1 y1 (mid ++ [(1, yl)]) 1 = some yl := by
  intro mid
  induction mid with
  | nil =>
    intro x1 y1 yl hx1 _
    have hne : (1:ℚ) - x1 ≠ 0 := sub_ne_zero.mpr (ne_of_gt hx1)
    simp only [List.nil_append, interpGo]
    rw [if_pos le_rfl]
    simp only [Option.some.injEq]
    rw [mul_div_assoc, div_self hne, mul_one]
    ring
  | cons p mid2 ih =>
    intro x1 y1 yl hx1 hall
    obtain ⟨x2, y2⟩ := p
    have hx2 : x2 < 1 := by
      have := hall (x2, y2) (List.mem_cons_self _ _)
      simpa using this
    have hnle : ¬ ((1:ℚ) ≤ x2) := not_le.mpr hx2
    simp only [List.cons_append, interpGo, hnle, if_false]
    exact ih x2 y2 yl hx2 (fun q hq => hall q (List.mem_cons_of_mem _ hq))

/-! Claim theorems. -/

/-- C1: one weight application multiplies each event weight in place by
clip((1 + delta_gamma_mu * cr_rw_array[i]) * atm_muon_scale, 0, inf), stated
pointwise over any container whose cached array and weight array have equal
length. -/
theorem apply_function_multiplies_clipped (delta_gamma_mu atm_muon_scale : ℚ)
    (c : Container) (i : Nat) (hlen : c.cr_rw_array.length = c.weights.length)
    (hi : i < c.weights.length) :
    (apply_function delta_gamma_mu atm_muon_scale c).weights.getD i 0 =
      c.weights.getD i 0 *
        max ((1 + delta_gamma_mu * c.cr_rw_array.getD i 0) * atm_muon_scale) 0 := by
  have hlz : i < (List.zipWith
      (fun cr w => w * weight_factor delta_gamma_mu atm_muon_scale cr)
      c.cr_rw_array c.weights).length := by
    rw [List.length_zipWith, hlen, min_self]
    exact hi
  have h := getD_zipWith
    (fun cr w => w * weight_factor delta_gamma_mu atm_muon_scale cr)
    c.cr_rw_array c.weights i hlz
  simpa [apply_function, weight_factor] using h

/-- C1 witness: scenario 4, cr_rw_array value 3/10, delta_gamma_mu 2,
atm_muon_scale 3/2, prior weight 10 gives new weight 24. -/
theorem apply_function_scenario4 :
    (Container.mk [] [3/10] [10]).cr_rw_array.length =
      (Container.mk [] [3/10] [10]).weights.length ∧
    0 < (Container.mk [] [3/10] [10]).weights.length ∧
    (apply_function 2 (3/2) (Container.mk [] [3/10] [10])).weights.getD 0 0 = 24 := by
  refine ⟨rfl, by norm_num, ?_⟩
  have h := apply_function_multiplies_clipped 2 (3/2)
    (Container.mk [] [3/10] [10]) 0 rfl (by norm_num)
  rw [h]
  have hm : max ((1 + 2 * ((3:ℚ)/10)) * (3/2)) 0 = 12/5 := by
    rw [max_eq_left (by norm_num)]
    norm_num
  simp only [List.getD_cons_zero]
  rw [hm]
  norm_num

/-- C2: after one weight application every weight stays nonnegative (given
nonnegative prior weights), and wherever the combined factor
(1 + delta_gamma_mu * cr) * atm_muon_scale is negative the clamp floors it to
zero, so the resulting weight is zero regardless of the prior value. -/
theorem apply_function_nonneg_clamp (delta_gamma_mu atm_muon_scale : ℚ)
    (c : Container) (h0 : ∀ w ∈ c.weights, 0 ≤ w) :
    (∀ w ∈ (apply_function delta_gamma_mu atm_muon_scale c).weights, 0 ≤ w) ∧
    (∀ i : Nat, (1 + delta_gamma_mu * c.cr_rw_array.getD i 0) * atm_muon_scale < 0 →
      (apply_function delta_gamma_mu atm_muon_scale c).weights.getD i 0 = 0) := by
  constructor
  · intro w hw
    simp only [apply_function] at hw
    obtain ⟨cr, _, w0, hw0, rfl⟩ := exists_of_mem_zipWith _ _ _ _ hw
    exact mul_nonneg (h0 w0 hw0) (le_max_right _ _)
  · intro i hneg
    by_cases hi : i < (List.zipWith
        (fun cr w => w * weight_factor delta_gamma_mu atm_muon_scale cr)
        c.cr_rw_array c.weights).length
    · have h := getD_zipWith
        (fun cr w => w * weight_factor delta_gamma_mu atm_muon_scale cr)
        c.cr_rw_array c.weights i hi
      simp only [apply_function]
      rw [h]
      have hz : weight_factor delta_gamma_mu atm_muon_scale (c.cr_rw_array.getD i 0) = 0 := by
        unfold weight_factor
        exact max_eq_right (le_of_lt hneg)
      simp only [hz, mul_zero]
    · have hle := not_lt.mp hi
      simp only [apply_function]
      rw [List.getD_eq_getElem?_getD, List.getElem?_eq_none hle, Option.getD_none]

/-- C2 witness: scenario 5, the factor combination is negative, the clamped
factor is zero and the weight becomes zero. -/
theorem apply_function_clamp_scenario5 :
    (∀ w ∈ (Container.mk [] [-2] [10]).weights, (0:ℚ) ≤ w) ∧
    (1 + 1 * ((Container.mk ([]:List ℚ) [-2] [10]).cr_rw_array.getD 0 0)) * 1 < 0 ∧
    (apply_function 1 1 (Container.mk [] [-2] [10])).weights.getD 0 0 = 0 := by
  have h0 : ∀ w ∈ (Container.mk ([]:List ℚ) [-2] [10]).weights, (0:ℚ) ≤ w := by
    intro w hw
    have hw10 : w = 10 := by simpa using hw
    rw [hw10]
    norm_num
  refine ⟨h0, by norm_num, ?_⟩
  exact (apply_function_nonneg_clamp 1 1 _ h0).2 0 (by norm_num)

/-- C3: the normalisation constant computed by setup_function is the batch
mean, and the centered array rw_array - norm has mean exactly zero for every
non-empty batch. -/
theorem cr_rw_array_mean_zero (rw : List ℚ) (h : rw ≠ []) :
    setup_norm rw = npMean rw ∧ npMean (setup_cr_rw_array rw) = 0 := by
  refine ⟨rfl, ?_⟩
  have hn : (rw.length : ℚ) ≠ 0 := by
    have hz : rw.length ≠ 0 := fun h0 => h (List.length_eq_zero.mp h0)
    exact_mod_cast hz
  unfold npMean setup_cr_rw_array
  rw [List.length_map, sum_map_sub_const]
  unfold setup_norm
  rw [mul_comm ((rw.length : ℚ)) (rw.sum / rw.length), div_mul_cancel₀ _ hn,
    sub_self, zero_div]

/-- C3 witness: the batch 1, 2, 3 is non-empty and its centered array has
mean zero. -/
theorem cr_rw_array_mean_zero_example :
    ([1, 2, 3] : List ℚ) ≠ [] ∧ npMean (setup_cr_rw_array [1, 2, 3]) = 0 :=
  ⟨by simp, (cr_rw_array_mean_zero [1, 2, 3] (by simp)).2⟩

/-- C4: scenario 1, the zero y-value at x 1/2 is forward-filled from the next
index, and padding prepends the point (0, 2) and appends (1, 4). -/
theorem sanitize_pad_scenario1 :
    sanitize [2, 0, 4] = .ok [2, 4, 4] ∧
    padTable [1/10, 1/2, 9/10] [2, 4, 4] =
      .ok [(0, 2), (1/10, 2), (1/2, 4), (9/10, 4), (1, 4)] :=
  ⟨by decide, rfl⟩

/-- C9: weight application never touches the cached rw_array and cr_rw_array,
and applying it twice with the same parameters multiplies each prior weight by
the square of the clamped factor, hence it is not idempotent on the weights. -/
theorem apply_function_compounds (delta_gamma_mu atm_muon_scale : ℚ) (c : Container) :
    (apply_function delta_gamma_mu atm_muon_scale c).rw_array = c.rw_array ∧
    (apply_function delta_gamma_mu atm_muon_scale c).cr_rw_array = c.cr_rw_array ∧
    (apply_function delta_gamma_mu atm_muon_scale
        (apply_function delta_gamma_mu atm_muon_scale c)).weights =
      List.zipWith (fun cr w => w * weight_factor delta_gamma_mu atm_muon_scale cr ^ 2)
        c.cr_rw_array c.weights ∧
    (apply_function 1 2 (apply_function 1 2 (Container.mk [] [0] [1]))).weights ≠
      (apply_function 1 2 (Container.mk [] [0] [1])).weights := by
  have hwf : weight_factor 1 2 0 = 2 := by
    unfold weight_factor
    rw [max_eq_left (by norm_num)]
    norm_num
  refine ⟨rfl, rfl, ?_, ?_⟩
  · simp only [apply_function]
    rw [zipWith_same_compose]
    exact zipWith_congr_fun _ _ (fun a w => by ring) _ _
  · have h1 : (apply_function 1 2 (Container.mk [] [0] [1])).weights = [2] := by
      simp [apply_function, hwf]
    have h2 : (apply_function 1 2 (apply_function 1 2 (Container.mk [] [0] [1]))).weights
        = [4] := by
      simp [apply_function, hwf]
      norm_num
    rw [h1, h2]
    simp

/-- C5: whenever the last y-value of the calibration table is exactly zero,
the forward fill reads one index past the end of the array, so sanitization
reaches the out-of-bounds error branch and produces no in-bounds result. -/
theorem sanitize_trailing_zero_index_error (ys : List ℚ)
    (h : ys.getLast? = some 0) : sanitize ys = .error .indexError := by
  have hne : ys ≠ [] := by
    intro h0
    rw [h0] at h
    simp at h
  have hpos : 0 < ys.length := List.length_pos.mpr hne
  have hmem0 : (0:ℚ) ∈ ys := List.mem_of_getLast?_eq_some h
  have hidx : ys[ys.length - 1]? = some 0 := by
    rw [← List.getLast?_eq_getElem?]
    exact h
  have hzin : ys.length - 1 ∈ zeroIndices ys := by
    unfold zeroIndices
    rw [List.mem_filter]
    constructor
    · exact List.mem_range.mpr (Nat.sub_lt hpos Nat.one_pos)
    · rw [List.getD_eq_getElem?_getD, hidx]
      simp
  cases hfp : fillPass ys with
  | ok res =>
    exfalso
    have hb := fillPassAux_ok_bound (zeroIndices ys) ys res hfp (ys.length - 1) hzin
    omega
  | error e =>
    have he : e = .indexError := fillPassAux_error (zeroIndices ys) ys e hfp
    subst he
    unfold sanitize sanitizeZeros
    rw [if_pos hmem0, hfp]
    rfl

/-- C5 witness: the y column 2, 0 ends in zero and sanitization raises the
index error. -/
theorem sanitize_trailing_zero_example :
    ([2, 0] : List ℚ).getLast? = some 0 ∧ sanitize [2, 0] = .error .indexError :=
  ⟨by decide, sanitize_trailing_zero_index_error [2, 0] (by decide)⟩

/-- C6: for a sanitized table over strictly increasing interior x-values the
padded table prepends (0, first sanitized y) and appends (1, last sanitized
y), and the linear interpolating curve evaluates at 0 to the first sanitized
y-value and at 1 to the last one. -/
theorem padded_curve_boundary (xs ys ys2 : List ℚ)
    (hs : sanitize ys = .ok ys2) (hne : ys ≠ [])
    (hlen : xs.length = ys.length)
    (hchain : List.Chain' (· < ·) xs)
    (hbound : ∀ x ∈ xs, 0 < x ∧ x < 1) :
    padTable xs ys2 =
      .ok ((0, ys2.getD 0 0) :: (xs.zip ys2 ++ [(1, ys2.getLastD 0)])) ∧
    interp1d ((0, ys2.getD 0 0) :: (xs.zip ys2 ++ [(1, ys2.getLastD 0)])) 0 =
      some (ys2.getD 0 0) ∧
    interp1d ((0, ys2.getD 0 0) :: (xs.zip ys2 ++ [(1, ys2.getLastD 0)])) 1 =
      some (ys2.getLastD 0) := by
  have hlen2 : ys2.length = ys.length := sanitizeZeros_ok_length (ys.length + 1) ys ys2 hs
  have hys2ne : ys2 ≠ [] := by
    intro h0
    rw [h0] at hlen2
    exact hne (List.length_eq_zero.mp hlen2.symm)
  obtain ⟨y0, ytl, rfl⟩ := List.exists_cons_of_ne_nil hys2ne
  have hxne : xs ≠ [] := by
    intro h0
    rw [h0] at hlen
    exact hne (List.length_eq_zero.mp (hlen2.trans hlen.symm ▸ hlen2).symm ▸ rfl)
  obtain ⟨x1, xtl, rfl⟩ := List.exists_cons_of_ne_nil hxne
  have hxy : (x1 :: xtl).length = (y0 :: ytl).length := by rw [hlen, hlen2]
  have hzip : List.zip ((0:ℚ) :: (x1 :: xtl) ++ [1])
      (y0 :: (y0 :: ytl) ++ [(y0 :: ytl).getLastD 0]) =
      (0, y0) :: ((x1 :: xtl).zip (y0 :: ytl) ++ [(1, (y0 :: ytl).getLastD 0)]) := by
    have hxy2 : xtl.length = ytl.length := by simpa using hxy
    simp [List.zip_append hxy2]
  refine ⟨?_, ?_, ?_⟩
  · simp only [List.getD_cons_zero]
    rw [← hzip]
    rfl
  · have hx1 := hbound x1 (List.mem_cons_self x1 xtl)
    simp only [List.getD_cons_zero, List.zip_cons_cons, List.cons_append, interp1d, interpGo]
    rw [if_neg (lt_irrefl (0:ℚ)), if_pos hx1.1.le]
    norm_num
  · simp only [List.getD_cons_zero, interp1d]
    rw [if_neg (by norm_num : ¬ ((1:ℚ) < 0))]
    refine interpGo_at_one ((x1 :: xtl).zip (y0 :: ytl)) 0 y0 _ (by norm_num) ?_
    intro p hp
    obtain ⟨a, b⟩ := p
    exact (hbound a (List.of_mem_zip hp).1).2

/-- C6 witness: the one-row table with x 1/2 and y 3 is padded to three points
and the curve takes the value 3 at both domain boundaries. -/
theorem padded_curve_boundary_example :
    sanitize [3] = .ok [3] ∧
    (padTable [1/2] [3] =
        .ok ((0, ([3] : List ℚ).getD 0 0) ::
          (([1/2] : List ℚ).zip [3] ++ [(1, ([3] : List ℚ).getLastD 0)])) ∧
      interp1d ((0, ([3] : List ℚ).getD 0 0) ::
          (([1/2] : List ℚ).zip [3] ++ [(1, ([3] : List ℚ).getLastD 0)])) 0 =
        some (([3] : List ℚ).getD 0 0) ∧
      interp1d ((0, ([3] : List ℚ).getD 0 0) ::
          (([1/2] : List ℚ).zip [3] ++ [(1, ([3] : List ℚ).getLastD 0)])) 1 =
        some (([3] : List ℚ).getLastD 0)) :=
  ⟨by decide,
    padded_curve_boundary [1/2] [3] [3] (by decide) (by decide) rfl
      (List.chain'_singleton _)
      (by
        intro x hx
        rw [List.mem_singleton] at hx
        subst hx
        norm_num)⟩

/-- C7 counterexample: the variable name muon_true_coszen is unchanged by
leading-prefix stripping and differs from coszen, yet curve construction
succeeds on a well-formed file, so the claimed rejection does not occur. -/
theorem leading_prefix_claim_false :
    specStripLeadingTrue "muon_true_coszen" ≠ "coszen" ∧
    make_prim_unc_spline "muon_true_coszen" "muon_coszen_unc.txt" [1/2] [3] =
      .ok [(0, 3), (1/2, 3), (1, 3)] :=
  ⟨by decide, rfl⟩

/-- C7 amended: whenever the text after the last occurrence of true_ in the
configured variable name differs from coszen, the curve builder raises the
configuration ValueError before reading any table data, whatever the file
name and table content are. -/
theorem invalid_variable_raises (delta_gamma_mu_variable delta_gamma_mu_file : String)
    (xs ys : List ℚ) (h : bare_variable delta_gamma_mu_variable ≠ "coszen") :
    make_prim_unc_spline delta_gamma_mu_variable delta_gamma_mu_file xs ys =
      .error .valueError := by
  unfold make_prim_unc_spline validate_config
  rw [if_pos h]
  rfl

/-- C7 witness: the variable name true_energy strips to energy and is
rejected regardless of the table. -/
theorem invalid_variable_raises_example :
    bare_variable "true_energy" ≠ "coszen" ∧
    make_prim_unc_spline "true_energy" "muon_coszen_unc.txt" [] [] = .error .valueError :=
  ⟨by decide,
    invalid_variable_raises "true_energy" "muon_coszen_unc.txt" [] [] (by decide)⟩

/-- C8: when the file identifier does not contain the bare variable name as a
substring the builder raises the configuration ValueError before any I/O,
whatever the table content is; and the scenario-2 pair true_coszen with
muon_coszen_unc.txt passes validation. -/
theorem file_mismatch_raises :
    (∀ (v f : String) (xs ys : List ℚ),
      containsSub (bare_variable v).data f.data = false →
      make_prim_unc_spline v f xs ys = .error .valueError) ∧
    validate_config "true_coszen" "muon_coszen_unc.txt" = .ok () := by
  constructor
  · intro v f xs ys hc
    unfold make_prim_unc_spline validate_config
    by_cases hb : bare_variable v ≠ "coszen"
    · rw [if_pos hb]
      rfl
    · rw [if_neg hb, if_pos hc]
      rfl
  · decide

/-- C8 witness: the file name flux_unc.txt does not mention coszen, so the
builder rejects the configuration before touching the table. -/
theorem file_mismatch_raises_example :
    containsSub (bare_variable "coszen").data ("flux_unc.txt" : String).data = false ∧
    make_prim_unc_spline "coszen" "flux_unc.txt" [] [] = .error .valueError :=
  ⟨by decide, file_mismatch_raises.1 "coszen" "flux_unc.txt" [] [] (by decide)⟩

/-- C10: the stripping step keeps the text after the last occurrence of
true_, so names such as muon_true_coszen and truetrue_coszen pass validation
even though leading-prefix stripping would leave them different from coszen,
and a bare coszen passes through unchanged. -/
theorem bare_variable_last_occurrence :
    bare_variable "muon_true_coszen" = "coszen" ∧
    validate_config "muon_true_coszen" "muon_coszen_unc.txt" = .ok () ∧
    specStripLeadingTrue "muon_true_coszen" ≠ "coszen" ∧
    bare_variable "truetrue_coszen" = "coszen" ∧
    validate_config "truetrue_coszen" "muon_coszen_unc.txt" = .ok () ∧
    specStripLeadingTrue "truetrue_coszen" ≠ "coszen" ∧
    bare_variable "coszen" = "coszen" := by
  decide

end AtmMuons
